import Mathlib

/-!
Verification of the `focus` productivity timer: shallow embedding of the
session store (BoltDB-backed, time-keyed range scans with boundary-overlap
correction and tag filtering), the legacy pomodoro timer state machine, the
interrupted-timer persistence protocol, and the database open/locking error
mapping, all translated from the Go sources in `store/store.go`,
`src/app.go` and `src/internal/db.go`.
-/

namespace Focus

/-- Byte-wise strict lexicographic comparison on byte strings, mirroring
`bytes.Compare(a, b) < 0` in Go. -/
def bytesLt : List Nat → List Nat → Bool
  | [], [] => false
  | [], _ :: _ => true
  | _ :: _, [] => false
  | a :: as, b :: bs =>
      if a < b then true
      else if b < a then false
      else bytesLt as bs

/-- `bytes.Compare(a, b) <= 0` in Go, i.e. `a` is not lexicographically
greater than `b`. -/
def keyLe (a b : List Nat) : Bool := ! bytesLt b a

theorem bytesLt_irrefl (l : List Nat) : bytesLt l l = false := by
  induction l with
  | nil => rfl
  | cons a as ih => simp [bytesLt, ih]

theorem bytesLt_asymm :
    ∀ a b : List Nat, bytesLt a b = true → bytesLt b a = false
  | [], [], h => by simp [bytesLt] at h
  | [], _ :: _, _ => by simp [bytesLt]
  | _ :: _, [], h => by simp [bytesLt] at h
  | a :: as, b :: bs, h => by
      simp only [bytesLt] at h ⊢
      split_ifs at h ⊢ with h1 h2 h3
      all_goals try rfl
      all_goals try omega
      exact bytesLt_asymm as bs h

theorem bytesLt_trans :
    ∀ a b c : List Nat,
      bytesLt a b = true → bytesLt b c = true → bytesLt a c = true
  | [], _, _ :: _, _, _ => by simp [bytesLt]
  | [], b, [], _, h2 => by cases b <;> simp [bytesLt] at h2
  | _ :: _, [], _, h1, _ => by simp [bytesLt] at h1
  | _ :: _, _ :: _, [], _, h2 => by simp [bytesLt] at h2
  | a :: as, b :: bs, c :: cs, h1, h2 => by
      simp only [bytesLt] at h1 h2 ⊢
      split_ifs at h1 h2 ⊢ with h3 h4 h5 h6 h7 h8
      all_goals try rfl
      all_goals try omega
      exact bytesLt_trans as bs cs h1 h2

theorem bytesLt_eq_of_not :
    ∀ a b : List Nat, bytesLt a b = false → bytesLt b a = false → a = b
  | [], [], _, _ => rfl
  | [], _ :: _, h1, _ => by simp [bytesLt] at h1
  | _ :: _, [], _, h2 => by simp [bytesLt] at h2
  | a :: as, b :: bs, h1, h2 => by
      simp only [bytesLt] at h1 h2
      split_ifs at h1 h2 with h3 h4
      have hab : a = b := by omega
      have := bytesLt_eq_of_not as bs h1 h2
      simp [hab, this]

/-- Appending after equal prefixes preserves the comparison of the
suffixes. -/
theorem bytesLt_append_same :
    ∀ (l r₁ r₂ : List Nat),
      bytesLt (l ++ r₁) (l ++ r₂) = bytesLt r₁ r₂ := by
  intro l r₁ r₂
  induction l with
  | nil => rfl
  | cons a as ih => simp [bytesLt, ih]

/-- A strict comparison of equal-length prefixes decides the comparison of
the appended strings. -/
theorem bytesLt_append_left :
    ∀ (l₁ l₂ r₁ r₂ : List Nat), l₁.length = l₂.length →
      bytesLt l₁ l₂ = true → bytesLt (l₁ ++ r₁) (l₂ ++ r₂) = true
  | [], [], _, _, _, h => by simp [bytesLt] at h
  | [], _ :: _, _, _, hl, _ => by simp at hl
  | _ :: _, [], _, _, hl, _ => by simp at hl
  | a :: as, b :: bs, r₁, r₂, hl, h => by
      simp only [bytesLt, List.cons_append] at h ⊢
      split_ifs at h ⊢ with h1 h2
      all_goals try rfl
      exact bytesLt_append_left as bs r₁ r₂ (by simpa using hl) h

/-- Two-digit zero-padded decimal rendering, as ASCII byte values: the image
of Go's `%02d`-style padding used by `time.Format` for values below 100. -/
def pad2 (n : Nat) : List Nat := [48 + n / 10, 48 + n % 10]

/-- Four-digit zero-padded decimal rendering (Go layout `2006`) for years
in `0..9999`, split into two two-digit blocks. -/
def pad4 (n : Nat) : List Nat := pad2 (n / 100) ++ pad2 (n % 100)

theorem pad2_length (n : Nat) : (pad2 n).length = 2 := rfl

theorem pad2_lt (a b : Nat) (hab : a < b) (_hb : b < 100) :
    bytesLt (pad2 a) (pad2 b) = true := by
  simp only [pad2, bytesLt]
  split_ifs <;> first | rfl | omega

theorem pad4_lt (a b : Nat) (hab : a < b) (hb : b < 10000) :
    bytesLt (pad4 a) (pad4 b) = true := by
  simp only [pad4]
  rcases Nat.lt_or_ge (a / 100) (b / 100) with h | h
  · exact bytesLt_append_left _ _ _ _ (by simp [pad2_length])
      (pad2_lt _ _ h (by omega))
  · have hdiv : a / 100 = b / 100 := by omega
    have hmod : a % 100 < b % 100 := by omega
    rw [hdiv, bytesLt_append_same]
    exact pad2_lt _ _ hmod (by omega)

/-- Leap-year predicate of the proleptic Gregorian calendar, as used by
Go's `time` package. -/
def isLeap (y : Nat) : Bool := (y % 4 == 0 && y % 100 != 0) || y % 400 == 0

/-- Number of days in month `m` (numbered 1..12) of a leap or common year;
0 outside the calendar range. -/
def daysInMonth (leap : Bool) : Nat → Nat
  | 1 => 31
  | 2 => if leap then 29 else 28
  | 3 => 31
  | 4 => 30
  | 5 => 31
  | 6 => 30
  | 7 => 31
  | 8 => 31
  | 9 => 30
  | 10 => 31
  | 11 => 30
  | 12 => 31
  | _ => 0

/-- Length of a leap or common year in days. -/
def daysInYearL (leap : Bool) : Nat := if leap then 366 else 365

/-- Days contained in the months strictly before month `m` of a year. -/
def daysBeforeMonth (leap : Bool) : Nat → Nat
  | 0 => 0
  | m + 1 => daysBeforeMonth leap m + daysInMonth leap m

/-- Days contained in the calendar years `0, 1, ..., y - 1`. -/
def daysBeforeYear : Nat → Nat
  | 0 => 0
  | y + 1 => daysBeforeYear y + daysInYearL (isLeap y)

/-- A wall-clock timestamp as carried by Go's `time.Time`: a civil
date-time, sub-second nanoseconds, and a zone offset in minutes. -/
structure Timestamp where
  year : Nat
  month : Nat
  day : Nat
  hour : Nat
  minute : Nat
  second : Nat
  nano : Nat
  offset : Int
deriving DecidableEq

/-- Serial day count of the civil date of a timestamp. -/
def dayNumber (t : Timestamp) : Nat :=
  daysBeforeYear t.year + daysBeforeMonth (isLeap t.year) t.month +
    (t.day - 1)

/-- Second within the civil day of a timestamp. -/
def secondOfDay (t : Timestamp) : Nat :=
  t.hour * 3600 + t.minute * 60 + t.second

/-- Absolute instant in whole seconds: the civil reading of the timestamp
minus its zone offset, the second clock compared by Go's `time` package. -/
def instantSec (t : Timestamp) : Int :=
  (dayNumber t * 86400 + secondOfDay t : Nat) - t.offset * 60

/-- Absolute instant in nanoseconds; Go's `t1.After(t2)` is
`instantNs t1 > instantNs t2` and `t1.Before(t2)` the converse. -/
def instantNs (t : Timestamp) : Int :=
  instantSec t * 1000000000 + t.nano

/-- Calendar-valid timestamps that the model's RFC3339 rendering covers:
years 0..9999 (four-digit layout) and zone offsets below 24 hours. -/
def WellFormed (t : Timestamp) : Prop :=
  1 ≤ t.month ∧ t.month ≤ 12 ∧ 1 ≤ t.day ∧
  t.day ≤ daysInMonth (isLeap t.year) t.month ∧
  t.hour < 24 ∧ t.minute < 60 ∧ t.second < 60 ∧ t.nano < 1000000000 ∧
  t.year ≤ 9999 ∧ -1440 < t.offset ∧ t.offset < 1440

instance (t : Timestamp) : Decidable (WellFormed t) := by
  unfold WellFormed; infer_instance

/-- The RFC3339 zone suffix rendered by Go's layout `Z07:00`: the letter Z
(byte 90) for UTC, otherwise a sign (43/45) and an `hh:mm` offset. -/
def offsetBytes (o : Int) : List Nat :=
  if o = 0 then [90]
  else if 0 < o then 43 :: (pad2 (o.toNat / 60) ++ 58 :: pad2 (o.toNat % 60))
  else 45 :: (pad2 ((-o).toNat / 60) ++ 58 :: pad2 ((-o).toNat % 60))

/-- The session key used by the store: `sess.StartTime.Format(time.RFC3339)`
as a byte string — layout `2006-01-02T15:04:05Z07:00`, with byte 45 the
dash, 84 the letter T and 58 the colon. The layout renders no fractional
seconds. -/
def rfc3339Key (t : Timestamp) : List Nat :=
  pad4 t.year ++ 45 :: (pad2 t.month ++ 45 :: (pad2 t.day ++ 84 ::
    (pad2 t.hour ++ 58 :: (pad2 t.minute ++ 58 ::
      (pad2 t.second ++ offsetBytes t.offset)))))

theorem pad4_length (n : Nat) : (pad4 n).length = 4 := rfl

theorem bytesLt_cons_same (a : Nat) (r₁ r₂ : List Nat) :
    bytesLt (a :: r₁) (a :: r₂) = bytesLt r₁ r₂ := by
  simp [bytesLt]

theorem daysBeforeMonth_add_le (leap : Bool) :
    ∀ m, m < 13 →
      daysBeforeMonth leap m + daysInMonth leap m ≤ daysInYearL leap := by
  cases leap <;> decide

theorem daysBeforeMonth_mono (leap : Bool) :
    ∀ m₁, m₁ < 14 → ∀ m₂, m₂ < 14 → m₁ ≤ m₂ →
      daysBeforeMonth leap m₁ ≤ daysBeforeMonth leap m₂ := by
  cases leap <;> decide

theorem daysBeforeYear_succ_le (y₁ y₂ : Nat) (h : y₁ < y₂) :
    daysBeforeYear y₁ + daysInYearL (isLeap y₁) ≤ daysBeforeYear y₂ := by
  induction y₂ with
  | zero => omega
  | succ y ih =>
      have hy : daysBeforeYear (y + 1) =
          daysBeforeYear y + daysInYearL (isLeap y) := rfl
      rcases Nat.lt_or_ge y₁ y with h' | h'
      · have := ih h'
        omega
      · have hv : y₁ = y := by omega
        subst hv
        omega

theorem daysInMonth_pos (leap : Bool) :
    ∀ m, m < 13 → 1 ≤ m → 1 ≤ daysInMonth leap m := by
  cases leap <;> decide

theorem inYear_lt (leap : Bool) (m d : Nat) (hm1 : 1 ≤ m) (hm : m ≤ 12)
    (hd1 : 1 ≤ d) (hd : d ≤ daysInMonth leap m) :
    daysBeforeMonth leap m + (d - 1) < daysInYearL leap := by
  have h1 := daysBeforeMonth_add_le leap m (by omega)
  have h2 := daysInMonth_pos leap m (by omega) hm1
  omega

theorem inYear_mono (leap : Bool) (m₁ d₁ m₂ d₂ : Nat)
    (hm₁ : 1 ≤ m₁) (hlt : m₁ < m₂) (hm₂ : m₂ ≤ 12)
    (hd₁ : d₁ ≤ daysInMonth leap m₁) (hd₂ : 1 ≤ d₂) :
    daysBeforeMonth leap m₁ + (d₁ - 1) <
      daysBeforeMonth leap m₂ + (d₂ - 1) := by
  have hstep : daysBeforeMonth leap (m₁ + 1) =
      daysBeforeMonth leap m₁ + daysInMonth leap m₁ := rfl
  have hpos := daysInMonth_pos leap m₁ (by omega) hm₁
  have hmono := daysBeforeMonth_mono leap (m₁ + 1) (by omega) m₂ (by omega)
    (by omega)
  omega

theorem dayNumber_lt_of_lex (t₁ t₂ : Timestamp)
    (h₁ : WellFormed t₁) (h₂ : WellFormed t₂)
    (hlex : t₁.year < t₂.year ∨ (t₁.year = t₂.year ∧
      (t₁.month < t₂.month ∨ (t₁.month = t₂.month ∧ t₁.day < t₂.day)))) :
    dayNumber t₁ < dayNumber t₂ := by
  obtain ⟨hm1a, hm1b, hd1a, hd1b, -, -, -, -, hy1, -, -⟩ := h₁
  obtain ⟨hm2a, hm2b, hd2a, hd2b, -, -, -, -, hy2, -, -⟩ := h₂
  unfold dayNumber
  rcases hlex with hy | ⟨hyeq, hrest⟩
  · have ha := inYear_lt (isLeap t₁.year) t₁.month t₁.day hm1a hm1b hd1a hd1b
    have hb := daysBeforeYear_succ_le t₁.year t₂.year hy
    omega
  · rw [hyeq]
    rcases hrest with hm | ⟨hmeq, hd⟩
    · have := inYear_mono (isLeap t₂.year) t₁.month t₁.day t₂.month t₂.day
        hm1a hm hm2b (hyeq ▸ hd1b) hd2a
      omega
    · rw [hmeq]
      omega

theorem date_lex_of_dayNumber_lt (t₁ t₂ : Timestamp)
    (h₁ : WellFormed t₁) (h₂ : WellFormed t₂)
    (h : dayNumber t₁ < dayNumber t₂) :
    t₁.year < t₂.year ∨ (t₁.year = t₂.year ∧
      (t₁.month < t₂.month ∨ (t₁.month = t₂.month ∧ t₁.day < t₂.day))) := by
  rcases Nat.lt_trichotomy t₁.year t₂.year with hy | hy | hy
  · exact Or.inl hy
  · rcases Nat.lt_trichotomy t₁.month t₂.month with hm | hm | hm
    · exact Or.inr ⟨hy, Or.inl hm⟩
    · rcases Nat.lt_trichotomy t₁.day t₂.day with hd | hd | hd
      · exact Or.inr ⟨hy, Or.inr ⟨hm, hd⟩⟩
      · exfalso
        have : dayNumber t₁ = dayNumber t₂ := by
          unfold dayNumber
          rw [hy, hm, hd]
        omega
      · exfalso
        have := dayNumber_lt_of_lex t₂ t₁ h₂ h₁
          (Or.inr ⟨hy.symm, Or.inr ⟨hm.symm, hd⟩⟩)
        omega
    · exfalso
      have := dayNumber_lt_of_lex t₂ t₁ h₂ h₁ (Or.inr ⟨hy.symm, Or.inl hm⟩)
      omega
  · exfalso
    have := dayNumber_lt_of_lex t₂ t₁ h₂ h₁ (Or.inl hy)
    omega

theorem secondOfDay_lt (t : Timestamp) (h : WellFormed t) :
    secondOfDay t < 86400 := by
  obtain ⟨-, -, -, -, hh, hmi, hs, -, -, -, -⟩ := h
  unfold secondOfDay
  omega

/-- Splitting an `instantSec` comparison of same-offset timestamps into the
six-field civil lexicographic comparison that drives the key bytes. -/
theorem lex6_of_instantSec_lt (t₁ t₂ : Timestamp)
    (h₁ : WellFormed t₁) (h₂ : WellFormed t₂)
    (hoff : t₁.offset = t₂.offset) (h : instantSec t₁ < instantSec t₂) :
    t₁.year < t₂.year ∨ (t₁.year = t₂.year ∧
      (t₁.month < t₂.month ∨ (t₁.month = t₂.month ∧
        (t₁.day < t₂.day ∨ (t₁.day = t₂.day ∧
          (t₁.hour < t₂.hour ∨ (t₁.hour = t₂.hour ∧
            (t₁.minute < t₂.minute ∨ (t₁.minute = t₂.minute ∧
              t₁.second < t₂.second))))))))) := by
  have hsod₁ := secondOfDay_lt t₁ h₁
  have hsod₂ := secondOfDay_lt t₂ h₂
  have hn : dayNumber t₁ * 86400 + secondOfDay t₁ <
      dayNumber t₂ * 86400 + secondOfDay t₂ := by
    unfold instantSec at h
    rw [hoff] at h
    omega
  rcases Nat.lt_trichotomy (dayNumber t₁) (dayNumber t₂) with hdn | hdn | hdn
  · rcases date_lex_of_dayNumber_lt t₁ t₂ h₁ h₂ hdn with hy | ⟨hy, hrest⟩
    · exact Or.inl hy
    · rcases hrest with hm | ⟨hm, hd⟩
      · exact Or.inr ⟨hy, Or.inl hm⟩
      · exact Or.inr ⟨hy, Or.inr ⟨hm, Or.inl hd⟩⟩
  · have hsod : secondOfDay t₁ < secondOfDay t₂ := by omega
    have hdate : t₁.year = t₂.year ∧ t₁.month = t₂.month ∧ t₁.day = t₂.day := by
      rcases Nat.lt_trichotomy t₁.year t₂.year with hy | hy | hy
      · exfalso
        have := dayNumber_lt_of_lex t₁ t₂ h₁ h₂ (Or.inl hy)
        omega
      · rcases Nat.lt_trichotomy t₁.month t₂.month with hm | hm | hm
        · exfalso
          have := dayNumber_lt_of_lex t₁ t₂ h₁ h₂ (Or.inr ⟨hy, Or.inl hm⟩)
          omega
        · rcases Nat.lt_trichotomy t₁.day t₂.day with hd | hd | hd
          · exfalso
            have := dayNumber_lt_of_lex t₁ t₂ h₁ h₂
              (Or.inr ⟨hy, Or.inr ⟨hm, hd⟩⟩)
            omega
          · exact ⟨hy, hm, hd⟩
          · exfalso
            have := dayNumber_lt_of_lex t₂ t₁ h₂ h₁
              (Or.inr ⟨hy.symm, Or.inr ⟨hm.symm, hd⟩⟩)
            omega
        · exfalso
          have := dayNumber_lt_of_lex t₂ t₁ h₂ h₁ (Or.inr ⟨hy.symm, Or.inl hm⟩)
          omega
      · exfalso
        have := dayNumber_lt_of_lex t₂ t₁ h₂ h₁ (Or.inl hy)
        omega
    refine Or.inr ⟨hdate.1, Or.inr ⟨hdate.2.1, Or.inr ⟨hdate.2.2, ?_⟩⟩⟩
    obtain ⟨-, -, -, -, hh1, hmi1, hs1, -, -, -, -⟩ := h₁
    obtain ⟨-, -, -, -, hh2, hmi2, hs2, -, -, -, -⟩ := h₂
    unfold secondOfDay at hsod
    omega
  · exfalso
    omega

theorem daysInMonth_le (leap : Bool) :
    ∀ m, m < 13 → daysInMonth leap m ≤ 31 := by
  cases leap <;> decide

/-- Strict monotonicity of the RFC3339 key bytes in the instant, for
well-formed timestamps sharing one zone offset. -/
theorem key_lt_of_instantSec_lt (t₁ t₂ : Timestamp)
    (h₁ : WellFormed t₁) (h₂ : WellFormed t₂)
    (hoff : t₁.offset = t₂.offset) (h : instantSec t₁ < instantSec t₂) :
    bytesLt (rfc3339Key t₁) (rfc3339Key t₂) = true := by
  have hlex := lex6_of_instantSec_lt t₁ t₂ h₁ h₂ hoff h
  obtain ⟨-, -, -, -, -, -, -, -, hy1, -, -⟩ := h₁
  obtain ⟨-, hm2b, -, hd2b, hh2, hmi2, hs2, -, hy2, -, -⟩ := h₂
  have hd31 := daysInMonth_le (isLeap t₂.year) t₂.month (by omega)
  unfold rfc3339Key
  rw [hoff]
  rcases hlex with hy | ⟨hy, hlex⟩
  · exact bytesLt_append_left _ _ _ _ (by simp [pad4_length])
      (pad4_lt _ _ hy (by omega))
  · rw [hy, bytesLt_append_same, bytesLt_cons_same]
    rcases hlex with hm | ⟨hm, hlex⟩
    · exact bytesLt_append_left _ _ _ _ (by simp [pad2_length])
        (pad2_lt _ _ hm (by omega))
    · rw [hm, bytesLt_append_same, bytesLt_cons_same]
      rcases hlex with hd | ⟨hd, hlex⟩
      · exact bytesLt_append_left _ _ _ _ (by simp [pad2_length])
          (pad2_lt _ _ hd (by omega))
      · rw [hd, bytesLt_append_same, bytesLt_cons_same]
        rcases hlex with hh | ⟨hh, hlex⟩
        · exact bytesLt_append_left _ _ _ _ (by simp [pad2_length])
            (pad2_lt _ _ hh (by omega))
        · rw [hh, bytesLt_append_same, bytesLt_cons_same]
          rcases hlex with hmi | ⟨hmi, hs⟩
          · exact bytesLt_append_left _ _ _ _ (by simp [pad2_length])
              (pad2_lt _ _ hmi (by omega))
          · rw [hmi, bytesLt_append_same, bytesLt_cons_same]
            exact bytesLt_append_left _ _ _ _ (by simp [pad2_length])
              (pad2_lt _ _ hs (by omega))

theorem fields_eq_of_instantSec_eq (t₁ t₂ : Timestamp)
    (h₁ : WellFormed t₁) (h₂ : WellFormed t₂)
    (hoff : t₁.offset = t₂.offset) (h : instantSec t₁ = instantSec t₂) :
    t₁.year = t₂.year ∧ t₁.month = t₂.month ∧ t₁.day = t₂.day ∧
      t₁.hour = t₂.hour ∧ t₁.minute = t₂.minute ∧ t₁.second = t₂.second := by
  have hdn : dayNumber t₁ * 86400 + secondOfDay t₁ =
      dayNumber t₂ * 86400 + secondOfDay t₂ := by
    unfold instantSec at h
    rw [hoff] at h
    omega
  have hsod₁ := secondOfDay_lt t₁ h₁
  have hsod₂ := secondOfDay_lt t₂ h₂
  have hdneq : dayNumber t₁ = dayNumber t₂ := by omega
  have hsod : secondOfDay t₁ = secondOfDay t₂ := by omega
  have hy : t₁.year = t₂.year := by
    rcases Nat.lt_trichotomy t₁.year t₂.year with h' | h' | h'
    · exfalso
      have := dayNumber_lt_of_lex t₁ t₂ h₁ h₂ (Or.inl h')
      omega
    · exact h'
    · exfalso
      have := dayNumber_lt_of_lex t₂ t₁ h₂ h₁ (Or.inl h')
      omega
  have hm : t₁.month = t₂.month := by
    rcases Nat.lt_trichotomy t₁.month t₂.month with h' | h' | h'
    · exfalso
      have := dayNumber_lt_of_lex t₁ t₂ h₁ h₂ (Or.inr ⟨hy, Or.inl h'⟩)
      omega
    · exact h'
    · exfalso
      have := dayNumber_lt_of_lex t₂ t₁ h₂ h₁ (Or.inr ⟨hy.symm, Or.inl h'⟩)
      omega
  have hd : t₁.day = t₂.day := by
    rcases Nat.lt_trichotomy t₁.day t₂.day with h' | h' | h'
    · exfalso
      have := dayNumber_lt_of_lex t₁ t₂ h₁ h₂
        (Or.inr ⟨hy, Or.inr ⟨hm, h'⟩⟩)
      omega
    · exact h'
    · exfalso
      have := dayNumber_lt_of_lex t₂ t₁ h₂ h₁
        (Or.inr ⟨hy.symm, Or.inr ⟨hm.symm, h'⟩⟩)
      omega
  obtain ⟨-, -, -, -, hh1, hmi1, hs1, -, -, -, -⟩ := h₁
  obtain ⟨-, -, -, -, hh2, hmi2, hs2, -, -, -, -⟩ := h₂
  unfold secondOfDay at hsod
  exact ⟨hy, hm, hd, by omega, by omega, by omega⟩

theorem key_eq_of_instantSec_eq (t₁ t₂ : Timestamp)
    (h₁ : WellFormed t₁) (h₂ : WellFormed t₂)
    (hoff : t₁.offset = t₂.offset) (h : instantSec t₁ = instantSec t₂) :
    rfc3339Key t₁ = rfc3339Key t₂ := by
  obtain ⟨hy, hm, hd, hh, hmi, hs⟩ :=
    fields_eq_of_instantSec_eq t₁ t₂ h₁ h₂ hoff h
  unfold rfc3339Key
  rw [hy, hm, hd, hh, hmi, hs, hoff]

theorem instantSec_lt_of_key_lt (t₁ t₂ : Timestamp)
    (h₁ : WellFormed t₁) (h₂ : WellFormed t₂)
    (hoff : t₁.offset = t₂.offset)
    (h : bytesLt (rfc3339Key t₁) (rfc3339Key t₂) = true) :
    instantSec t₁ < instantSec t₂ := by
  rcases Int.lt_trichotomy (instantSec t₁) (instantSec t₂) with h' | h' | h'
  · exact h'
  · exfalso
    rw [key_eq_of_instantSec_eq t₁ t₂ h₁ h₂ hoff h', bytesLt_irrefl] at h
    exact Bool.noConfusion h
  · exfalso
    have ha := key_lt_of_instantSec_lt t₂ t₁ h₂ h₁ hoff.symm h'
    have hb := bytesLt_asymm _ _ ha
    rw [h] at hb
    exact Bool.noConfusion hb

theorem key_lt_iff (t₁ t₂ : Timestamp)
    (h₁ : WellFormed t₁) (h₂ : WellFormed t₂)
    (hoff : t₁.offset = t₂.offset) :
    bytesLt (rfc3339Key t₁) (rfc3339Key t₂) = true ↔
      instantSec t₁ < instantSec t₂ :=
  ⟨instantSec_lt_of_key_lt t₁ t₂ h₁ h₂ hoff,
   key_lt_of_instantSec_lt t₁ t₂ h₁ h₂ hoff⟩

theorem keyLe_iff (t₁ t₂ : Timestamp)
    (h₁ : WellFormed t₁) (h₂ : WellFormed t₂)
    (hoff : t₁.offset = t₂.offset) :
    keyLe (rfc3339Key t₁) (rfc3339Key t₂) = true ↔
      instantSec t₁ ≤ instantSec t₂ := by
  unfold keyLe
  constructor
  · intro h
    by_contra hcon
    push_neg at hcon
    rw [(key_lt_iff t₂ t₁ h₂ h₁ hoff.symm).mpr hcon] at h
    exact Bool.noConfusion h
  · intro h
    rcases lt_or_eq_of_le h with h' | h'
    · rw [bytesLt_asymm _ _ ((key_lt_iff t₁ t₂ h₁ h₂ hoff).mpr h')]
      rfl
    · rw [key_eq_of_instantSec_eq t₂ t₁ h₂ h₁ hoff.symm h'.symm, bytesLt_irrefl]
      rfl

/-- Concrete timestamp `0001-01-01T09:00:00+09:00`: instant midnight UTC. -/
def tsPlusNine : Timestamp :=
  { year := 1, month := 1, day := 1, hour := 9, minute := 0, second := 0,
    nano := 0, offset := 540 }

/-- Concrete timestamp `0001-01-01T05:00:00Z`: five hours past midnight. -/
def tsUtcFive : Timestamp :=
  { year := 1, month := 1, day := 1, hour := 5, minute := 0, second := 0,
    nano := 0, offset := 0 }

/-- C8 (counterexample): the claim "for every pair of timestamps with t1
chronologically before t2, the RFC3339 session key of t1 is strictly below
that of t2 in byte-wise lexicographic order" is false: the well-formed
timestamp `0001-01-01T09:00:00+09:00` is chronologically before
`0001-01-01T05:00:00Z`, yet its key is NOT lexicographically smaller (it is
strictly larger). -/
theorem claim_C8_counterexample :
    WellFormed tsPlusNine ∧ WellFormed tsUtcFive ∧
      instantNs tsPlusNine < instantNs tsUtcFive ∧
      bytesLt (rfc3339Key tsPlusNine) (rfc3339Key tsUtcFive) = false ∧
      bytesLt (rfc3339Key tsUtcFive) (rfc3339Key tsPlusNine) = true := by
  decide

/-- C8 (amended): for well-formed timestamps that share one zone offset,
whose whole-second instants are ordered (the RFC3339 layout renders no
sub-second digits), the chronologically earlier timestamp has the strictly
smaller session key under byte-wise lexicographic comparison — key order
equals chronological order within a fixed offset. -/
theorem claim_C8_amended (t₁ t₂ : Timestamp) (h₁ : WellFormed t₁)
    (h₂ : WellFormed t₂) (hoff : t₁.offset = t₂.offset)
    (h : instantSec t₁ < instantSec t₂) :
    bytesLt (rfc3339Key t₁) (rfc3339Key t₂) = true :=
  key_lt_of_instantSec_lt t₁ t₂ h₁ h₂ hoff h

/-- Witness for C8 (amended), at `0001-01-02T00:00:00Z` vs
`0001-01-02T00:00:01Z`. -/
theorem claim_C8_amended_witness :
    bytesLt
      (rfc3339Key
        { year := 1, month := 1, day := 2, hour := 0, minute := 0,
          second := 0, nano := 0, offset := 0 })
      (rfc3339Key
        { year := 1, month := 1, day := 2, hour := 0, minute := 0,
          second := 1, nano := 0, offset := 0 }) = true :=
  claim_C8_amended _ _ (by decide) (by decide) (by decide) (by decide)

/-- A recorded work/break interval as serialized into the `sessions`
bucket (`session.Session` / `models.Session` in the Go sources; the fields
the store logic reads). -/
structure Session where
  startTime : Timestamp
  endTime : Timestamp
  tags : List String
  completed : Bool
deriving DecidableEq

/-- A row of the `sessions` bucket: key bytes paired with the decoded
record; BoltDB keeps bucket rows in ascending key order. -/
abbrev Row : Type := List Nat × Session

/-- Strict ascending key order between bucket rows. -/
def rowLt (p q : Row) : Prop := bytesLt p.1 q.1 = true

/-- BoltDB `Put` on the sorted `sessions` bucket: insert the key at its
ordered position, replacing the stored value when the key already
exists. -/
def insertRow : List Row → List Nat → Session → List Row
  | [], k, s => [(k, s)]
  | (k', s') :: rest, k, s =>
      if bytesLt k k' = true then (k, s) :: (k', s') :: rest
      else if bytesLt k' k = true then (k', s') :: insertRow rest k s
      else (k, s) :: rest

/-- `Client.UpdateSession` / `putSession`: marshal the session and `Put` it
under the key `sess.StartTime.Format(time.RFC3339)`. -/
def putSession (bucket : List Row) (sess : Session) : List Row :=
  insertRow bucket (rfc3339Key sess.startTime) sess

/-- The `sessions` bucket produced by a sequence of `putSession` calls on
an empty store. -/
def buildStore (sessions : List Session) : List Row :=
  sessions.foldl putSession []

/-- The cursor walk of `Client.GetSessions` (store/store.go): seek to the
first key at or after the key of `since`; inspect the immediately
preceding row and keep it when its session's `EndTime` is after `since`
(`sess.EndTime.After(since)`); then scan forward while
`bytes.Compare(k, max) <= 0`. On a sorted bucket the seek/prev/next cursor
dance is exactly this split into the rows before and from the seek
position. -/
def scanRows (bucket : List Row) (since untilT : Timestamp) : List Row :=
  (match (bucket.takeWhile fun p : Row =>
      bytesLt p.1 (rfc3339Key since)).getLast? with
   | none => bucket.dropWhile fun q : Row => bytesLt q.1 (rfc3339Key since)
   | some p =>
       if instantNs since < instantNs p.2.endTime then
         p :: bucket.dropWhile fun q : Row => bytesLt q.1 (rfc3339Key since)
       else bucket.dropWhile fun q : Row =>
         bytesLt q.1 (rfc3339Key since)).takeWhile
    fun p : Row => keyLe p.1 (rfc3339Key untilT)

/-- `Client.GetSessions`: each scanned row is emitted once when the tag
filter is empty; otherwise the row's session is appended once per tag of
the session that occurs in the filter list (the Go loop appends inside
`for _, t := range sess.Tags`). -/
def getSessions (bucket : List Row) (since untilT : Timestamp)
    (tags : List String) : List Session :=
  (scanRows bucket since untilT).flatMap fun p =>
    if tags.isEmpty then [p.2]
    else (p.2.tags.filter fun t => tags.contains t).map fun _ => p.2

/-- Timestamps drawn from a single zone offset, at whole-second
granularity, inside the calendar range of the key codec. -/
def Uniform (ω : Int) (t : Timestamp) : Prop :=
  WellFormed t ∧ t.offset = ω ∧ t.nano = 0

instance (ω : Int) (t : Timestamp) : Decidable (Uniform ω t) := by
  unfold Uniform; infer_instance

theorem takeWhile_eq_filter_of_sorted {α : Type} {R : α → α → Prop}
    {p : α → Bool} (hclosed : ∀ a b, R a b → p b = true → p a = true) :
    ∀ l : List α, l.Pairwise R → l.takeWhile p = l.filter p
  | [], _ => rfl
  | a :: l, h => by
      obtain ⟨ha, hl⟩ := List.pairwise_cons.mp h
      by_cases hpa : p a = true
      · rw [List.takeWhile_cons_of_pos hpa, List.filter_cons_of_pos hpa,
          takeWhile_eq_filter_of_sorted hclosed l hl]
      · have hnone : ∀ b ∈ l, ¬ p b = true := fun b hb hpb =>
          hpa (hclosed a b (ha b hb) hpb)
        rw [List.takeWhile_cons_of_neg hpa, List.filter_cons_of_neg hpa]
        exact (List.filter_eq_nil_iff.mpr hnone).symm

theorem dropWhile_eq_filter_not_of_sorted {α : Type} {R : α → α → Prop}
    {p : α → Bool} (hclosed : ∀ a b, R a b → p b = true → p a = true) :
    ∀ l : List α, l.Pairwise R → l.dropWhile p = l.filter fun a => ! p a
  | [], _ => rfl
  | a :: l, h => by
      obtain ⟨ha, hl⟩ := List.pairwise_cons.mp h
      by_cases hpa : p a = true
      · rw [List.dropWhile_cons_of_pos hpa,
          List.filter_cons_of_neg (by simp [hpa]),
          dropWhile_eq_filter_not_of_sorted hclosed l hl]
      · have hnone : ∀ b ∈ l, (! p b) = true := by
          intro b hb
          cases hpb : p b with
          | true => exact absurd (hclosed a b (ha b hb) hpb) hpa
          | false => rfl
        rw [List.dropWhile_cons_of_neg hpa,
          List.filter_cons_of_pos (by simp [hpa]),
          List.filter_eq_self.mpr hnone]

theorem getLast?_eq_of_max {α : Type} {R : α → α → Prop} :
    ∀ l : List α, l.Pairwise R → ∀ x ∈ l, (∀ y ∈ l, ¬ R x y) →
      l.getLast? = some x
  | [], _, x, hx, _ => absurd hx (List.not_mem_nil x)
  | [a], _, x, hx, _ => by
      rcases List.mem_singleton.mp hx with rfl
      rfl
  | a :: b :: t, h, x, hx, hmax => by
      obtain ⟨ha, hl⟩ := List.pairwise_cons.mp h
      rw [List.getLast?_cons_cons]
      have hxbt : x ∈ b :: t := by
        rcases List.mem_cons.mp hx with rfl | hx'
        · exact absurd (ha b (List.mem_cons_self b t))
            (hmax b (List.mem_cons_of_mem x (List.mem_cons_self b t)))
        · exact hx'
      exact getLast?_eq_of_max (b :: t) hl x hxbt
        (fun y hy => hmax y (List.mem_cons_of_mem a hy))

theorem mem_of_getLast?_eq :
    ∀ {α : Type} (l : List α) (a : α), l.getLast? = some a → a ∈ l
  | _, [], _, h => by simp at h
  | _, [x], a, h => by
      simp only [List.getLast?_singleton, Option.some.injEq] at h
      simp [h]
  | _, x :: y :: t, a, h => by
      rw [List.getLast?_cons_cons] at h
      exact List.mem_cons_of_mem x (mem_of_getLast?_eq (y :: t) a h)

theorem mem_insertRow :
    ∀ (l : List Row) (k : List Nat) (s : Session) (y : Row),
      y ∈ insertRow l k s → y = (k, s) ∨ y ∈ l
  | [], k, s, y, h => by
      simp only [insertRow, List.mem_singleton] at h
      exact Or.inl h
  | (k', s') :: rest, k, s, y, h => by
      unfold insertRow at h
      split_ifs at h with h1 h2
      · rcases List.mem_cons.mp h with rfl | h'
        · exact Or.inl rfl
        · exact Or.inr h'
      · rcases List.mem_cons.mp h with rfl | h'
        · exact Or.inr (List.mem_cons_self _ _)
        · rcases mem_insertRow rest k s y h' with h'' | h''
          · exact Or.inl h''
          · exact Or.inr (List.mem_cons_of_mem _ h'')
      · rcases List.mem_cons.mp h with rfl | h'
        · exact Or.inl rfl
        · exact Or.inr (List.mem_cons_of_mem _ h')

theorem insertRow_pairwise :
    ∀ (l : List Row) (k : List Nat) (s : Session), l.Pairwise rowLt →
      (insertRow l k s).Pairwise rowLt
  | [], k, s, _ => List.pairwise_singleton _ _
  | (k', s') :: rest, k, s, h => by
      obtain ⟨ha, hrest⟩ := List.pairwise_cons.mp h
      unfold insertRow
      split_ifs with h1 h2
      · refine List.pairwise_cons.mpr ⟨?_, h⟩
        intro y hy
        rcases List.mem_cons.mp hy with rfl | hy'
        · exact h1
        · exact bytesLt_trans k k' y.1 h1 (ha y hy')
      · refine List.pairwise_cons.mpr
          ⟨?_, insertRow_pairwise rest k s hrest⟩
        intro y hy
        rcases mem_insertRow rest k s y hy with rfl | hy'
        · exact h2
        · exact ha y hy'
      · have hk : k = k' := bytesLt_eq_of_not k k'
          (by simpa using h1) (by simpa using h2)
        refine List.pairwise_cons.mpr ⟨?_, hrest⟩
        intro y hy
        show bytesLt k y.1 = true
        rw [hk]
        exact ha y hy

theorem mem_insertRow_iff :
    ∀ (l : List Row) (k : List Nat) (s : Session), l.Pairwise rowLt →
      ∀ y : Row, y ∈ insertRow l k s ↔ y = (k, s) ∨ (y ∈ l ∧ y.1 ≠ k)
  | [], k, s, _, y => by
      simp [insertRow]
  | (k', s') :: rest, k, s, h, y => by
      obtain ⟨ha, hrest⟩ := List.pairwise_cons.mp h
      have hne_of_gt : ∀ z : List Nat, bytesLt k z = true → z ≠ k := by
        intro z hz he
        subst he
        rw [bytesLt_irrefl] at hz
        exact Bool.noConfusion hz
      have hne_of_lt : ∀ z : List Nat, bytesLt z k = true → z ≠ k := by
        intro z hz he
        subst he
        rw [bytesLt_irrefl] at hz
        exact Bool.noConfusion hz
      unfold insertRow
      split_ifs with h1 h2
      · constructor
        · intro hy
          rcases List.mem_cons.mp hy with rfl | hy'
          · exact Or.inl rfl
          · refine Or.inr ⟨hy', ?_⟩
            rcases List.mem_cons.mp hy' with rfl | hy''
            · exact hne_of_gt k' h1
            · exact hne_of_gt y.1 (bytesLt_trans k k' y.1 h1 (ha y hy''))
        · intro hy
          rcases hy with rfl | ⟨hy', -⟩
          · exact List.mem_cons_self _ _
          · exact List.mem_cons_of_mem _ hy'
      · have hk' : (k', s').1 ≠ k := hne_of_lt k' h2
        constructor
        · intro hy
          rcases List.mem_cons.mp hy with rfl | hy'
          · exact Or.inr ⟨List.mem_cons_self _ _, hk'⟩
          · rcases (mem_insertRow_iff rest k s hrest y).mp hy' with rfl | ⟨hy'', hne⟩
            · exact Or.inl rfl
            · exact Or.inr ⟨List.mem_cons_of_mem _ hy'', hne⟩
        · intro hy
          rcases hy with rfl | ⟨hy', hne⟩
          · exact List.mem_cons_of_mem _
              ((mem_insertRow_iff rest k s hrest (k, s)).mpr (Or.inl rfl))
          · rcases List.mem_cons.mp hy' with rfl | hy''
            · exact List.mem_cons_self _ _
            · exact List.mem_cons_of_mem _
                ((mem_insertRow_iff rest k s hrest y).mpr
                  (Or.inr ⟨hy'', hne⟩))
      · have hk : k = k' := bytesLt_eq_of_not k k'
          (by simpa using h1) (by simpa using h2)
        constructor
        · intro hy
          rcases List.mem_cons.mp hy with rfl | hy'
          · exact Or.inl rfl
          · refine Or.inr ⟨List.mem_cons_of_mem _ hy', ?_⟩
            have := ha y hy'
            have hlt : bytesLt k y.1 = true := by
              rw [hk]
              exact this
            exact hne_of_gt y.1 hlt
        · intro hy
          rcases hy with rfl | ⟨hy', hne⟩
          · exact List.mem_cons_self _ _
          · rcases List.mem_cons.mp hy' with rfl | hy''
            · exact absurd hk.symm hne
            · exact List.mem_cons_of_mem _ hy''

theorem foldl_putSession_pairwise :
    ∀ (l : List Session) (acc : List Row), acc.Pairwise rowLt →
      (l.foldl putSession acc).Pairwise rowLt
  | [], _, h => h
  | s :: rest, acc, h =>
      foldl_putSession_pairwise rest (putSession acc s)
        (insertRow_pairwise _ _ _ h)

theorem buildStore_pairwise (l : List Session) :
    (buildStore l).Pairwise rowLt :=
  foldl_putSession_pairwise l [] List.Pairwise.nil

theorem mem_foldl_putSession :
    ∀ (l : List Session) (acc : List Row), acc.Pairwise rowLt →
      l.Pairwise
        (fun a b : Session =>
          rfc3339Key a.startTime ≠ rfc3339Key b.startTime) →
      (∀ s' ∈ l, ∀ p ∈ acc, p.1 ≠ rfc3339Key s'.startTime) →
      ∀ y : Row, y ∈ l.foldl putSession acc ↔
        y ∈ acc ∨ ∃ s ∈ l, y = (rfc3339Key s.startTime, s)
  | [], acc, _, _, _, y => by simp
  | s :: rest, acc, hacc, hdist, haccl, y => by
      obtain ⟨hshead, hdrest⟩ := List.pairwise_cons.mp hdist
      have hacc' : (putSession acc s).Pairwise rowLt :=
        insertRow_pairwise _ _ _ hacc
      have haccl' : ∀ s' ∈ rest, ∀ p ∈ putSession acc s,
          p.1 ≠ rfc3339Key s'.startTime := by
        intro s' hs' p hp
        rcases (mem_insertRow_iff acc (rfc3339Key s.startTime) s hacc p).mp
            hp with rfl | ⟨hpacc, -⟩
        · exact hshead s' hs'
        · exact haccl s' (List.mem_cons_of_mem _ hs') p hpacc
      have ih := mem_foldl_putSession rest (putSession acc s) hacc'
        hdrest haccl' y
      simp only [List.foldl_cons]
      rw [ih]
      constructor
      · intro hy
        rcases hy with hy | ⟨s', hs', rfl⟩
        · rcases (mem_insertRow_iff acc (rfc3339Key s.startTime) s hacc
              y).mp hy with rfl | ⟨hyacc, -⟩
          · exact Or.inr ⟨s, List.mem_cons_self _ _, rfl⟩
          · exact Or.inl hyacc
        · exact Or.inr ⟨s', List.mem_cons_of_mem _ hs', rfl⟩
      · intro hy
        rcases hy with hy | ⟨s', hs', rfl⟩
        · refine Or.inl ?_
          refine (mem_insertRow_iff acc (rfc3339Key s.startTime) s hacc
            y).mpr (Or.inr ⟨hy, ?_⟩)
          exact haccl s (List.mem_cons_self _ _) y hy
        · rcases List.mem_cons.mp hs' with rfl | hs''
          · exact Or.inl ((mem_insertRow_iff acc
              (rfc3339Key s'.startTime) s' hacc _).mpr (Or.inl rfl))
          · exact Or.inr ⟨s', hs'', rfl⟩

theorem mem_buildStore (l : List Session)
    (hdist : l.Pairwise
      (fun a b : Session =>
        rfc3339Key a.startTime ≠ rfc3339Key b.startTime))
    (y : Row) :
    y ∈ buildStore l ↔ ∃ s ∈ l, y = (rfc3339Key s.startTime, s) := by
  have := mem_foldl_putSession l [] List.Pairwise.nil hdist
    (by intro s' _ p hp; cases hp) y
  simpa using this

theorem keyLe_trans_lt (a b c : List Nat) (h1 : bytesLt a b = true)
    (h2 : keyLe b c = true) : keyLe a c = true := by
  unfold keyLe at h2 ⊢
  cases hca : bytesLt c a with
  | false => rfl
  | true =>
      rw [bytesLt_trans c a b hca h1] at h2
      exact Bool.noConfusion h2

theorem instantSec_eq_of_key_eq (t₁ t₂ : Timestamp)
    (h₁ : WellFormed t₁) (h₂ : WellFormed t₂)
    (hoff : t₁.offset = t₂.offset)
    (h : rfc3339Key t₁ = rfc3339Key t₂) : instantSec t₁ = instantSec t₂ := by
  rcases Int.lt_trichotomy (instantSec t₁) (instantSec t₂) with h' | h' | h'
  · exfalso
    have hl := key_lt_of_instantSec_lt t₁ t₂ h₁ h₂ hoff h'
    rw [h, bytesLt_irrefl] at hl
    exact Bool.noConfusion hl
  · exact h'
  · exfalso
    have hl := key_lt_of_instantSec_lt t₂ t₁ h₂ h₁ hoff.symm h'
    rw [h, bytesLt_irrefl] at hl
    exact Bool.noConfusion hl

theorem timestamp_eq_of_uniform (ω : Int) (t₁ t₂ : Timestamp)
    (h₁ : Uniform ω t₁) (h₂ : Uniform ω t₂)
    (h : instantSec t₁ = instantSec t₂) : t₁ = t₂ := by
  obtain ⟨hw₁, ho₁, hn₁⟩ := h₁
  obtain ⟨hw₂, ho₂, hn₂⟩ := h₂
  obtain ⟨hy, hm, hd, hh, hmi, hs⟩ :=
    fields_eq_of_instantSec_eq t₁ t₂ hw₁ hw₂ (ho₁.trans ho₂.symm) h
  cases t₁
  cases t₂
  simp_all

theorem key_ne_of_ne (ω : Int) (t₁ t₂ : Timestamp)
    (h₁ : Uniform ω t₁) (h₂ : Uniform ω t₂) (hne : t₁ ≠ t₂) :
    rfc3339Key t₁ ≠ rfc3339Key t₂ := fun h =>
  hne (timestamp_eq_of_uniform ω t₁ t₂ h₁ h₂
    (instantSec_eq_of_key_eq t₁ t₂ h₁.1 h₂.1
      (h₁.2.1.trans h₂.2.1.symm) h))

theorem getSessions_nil_tags (bucket : List Row) (since untilT : Timestamp) :
    getSessions bucket since untilT [] =
      (scanRows bucket since untilT).map (fun p => p.2) := by
  unfold getSessions
  generalize scanRows bucket since untilT = rows
  induction rows with
  | nil => rfl
  | cons p ps ih => simp_all

theorem mem_afterScan (store : List Row) (mn mx : List Nat)
    (hsort : store.Pairwise rowLt) (y : Row) :
    (y ∈ (store.dropWhile fun q : Row => bytesLt q.1 mn).takeWhile
        fun p : Row => keyLe p.1 mx) ↔
      y ∈ store ∧ bytesLt y.1 mn = false ∧ keyLe y.1 mx = true := by
  have hdropc : ∀ a b : Row, rowLt a b →
      (fun q : Row => bytesLt q.1 mn) b = true →
      (fun q : Row => bytesLt q.1 mn) a = true := fun a b hab hb =>
    bytesLt_trans a.1 b.1 mn hab hb
  have htakec : ∀ a b : Row, rowLt a b →
      (fun p : Row => keyLe p.1 mx) b = true →
      (fun p : Row => keyLe p.1 mx) a = true := fun a b hab hb =>
    keyLe_trans_lt a.1 b.1 mx hab hb
  have hdrop := dropWhile_eq_filter_not_of_sorted hdropc store hsort
  have hsub : (store.dropWhile fun q : Row =>
      bytesLt q.1 mn).Pairwise rowLt :=
    hsort.sublist (List.dropWhile_sublist _)
  have htake := takeWhile_eq_filter_of_sorted htakec _ hsub
  rw [htake, hdrop]
  simp only [List.mem_filter, Bool.not_eq_true', and_assoc]
  try tauto

theorem afterScan_pairwise (store : List Row) (mn mx : List Nat)
    (hsort : store.Pairwise rowLt) :
    ((store.dropWhile fun q : Row => bytesLt q.1 mn).takeWhile
        fun p : Row => keyLe p.1 mx).Pairwise rowLt :=
  (hsort.sublist (List.dropWhile_sublist _)).sublist
    (List.takeWhile_sublist _)

theorem scanRows_of_no_overlap (ω : Int) (store : List Row)
    (since untilT : Timestamp)
    (hsort : store.Pairwise rowLt)
    (hkeys : ∀ p ∈ store, p.1 = rfc3339Key p.2.startTime ∧
      Uniform ω p.2.startTime)
    (hsince : Uniform ω since)
    (hnoov : ∀ p ∈ store, instantSec p.2.startTime < instantSec since →
      instantNs p.2.endTime ≤ instantNs since) :
    scanRows store since untilT =
      (store.dropWhile fun q : Row =>
        bytesLt q.1 (rfc3339Key since)).takeWhile
        fun p : Row => keyLe p.1 (rfc3339Key untilT) := by
  have hbeforec : ∀ a b : Row, rowLt a b →
      (fun p : Row => bytesLt p.1 (rfc3339Key since)) b = true →
      (fun p : Row => bytesLt p.1 (rfc3339Key since)) a = true :=
    fun a b hab hb => bytesLt_trans a.1 b.1 _ hab hb
  have htakebefore := takeWhile_eq_filter_of_sorted hbeforec store hsort
  unfold scanRows
  split
  · rfl
  · rename_i p hlast
    have hp : p ∈ store.takeWhile fun p : Row =>
        bytesLt p.1 (rfc3339Key since) := mem_of_getLast?_eq _ p hlast
    rw [htakebefore] at hp
    obtain ⟨hpstore, hplt⟩ := List.mem_filter.mp hp
    obtain ⟨hkey, huni⟩ := hkeys p hpstore
    have hstart : instantSec p.2.startTime < instantSec since := by
      refine (key_lt_iff p.2.startTime since huni.1 hsince.1
        (huni.2.1.trans hsince.2.1.symm)).mp ?_
      rw [← hkey]
      exact hplt
    have hend := hnoov p hpstore hstart
    rw [if_neg (not_lt.mpr hend)]

/-- Concrete store data for witnesses and counterexamples: a session from
01:00 to 03:00 on day 2 of year 1, UTC. -/
def sessOverlap : Session :=
  { startTime := ⟨1, 1, 2, 1, 0, 0, 0, 0⟩,
    endTime := ⟨1, 1, 2, 3, 0, 0, 0, 0⟩, tags := [], completed := true }

/-- A session from 03:00 to 03:30 on day 2 of year 1, UTC. -/
def sessInRange : Session :=
  { startTime := ⟨1, 1, 2, 3, 0, 0, 0, 0⟩,
    endTime := ⟨1, 1, 2, 3, 30, 0, 0, 0⟩, tags := [], completed := true }

/-- A tagged session from 01:00 to 02:00 on day 2 of year 1, UTC. -/
def sessTagged : Session :=
  { startTime := ⟨1, 1, 2, 1, 0, 0, 0, 0⟩,
    endTime := ⟨1, 1, 2, 2, 0, 0, 0, 0⟩, tags := ["work", "deep"],
    completed := true }

/-- Query bound 02:00 on day 2 of year 1, UTC. -/
def qSince : Timestamp := ⟨1, 1, 2, 2, 0, 0, 0, 0⟩

/-- Query bound 04:00 on day 2 of year 1, UTC. -/
def qUntil : Timestamp := ⟨1, 1, 2, 4, 0, 0, 0, 0⟩

/-- Query bound 00:30 on day 2 of year 1, UTC. -/
def c3Since : Timestamp := ⟨1, 1, 2, 0, 30, 0, 0, 0⟩

/-- Query bound 05:00 on day 2 of year 1, UTC. -/
def c3Until : Timestamp := ⟨1, 1, 2, 5, 0, 0, 0, 0⟩

/-- C2 (counterexample): the claim that `getSessions(minTime, maxTime, [])`
returns exactly the sessions whose `startTime` lies in the closed interval
`[minTime, maxTime]` fails: a single `putSession` of a session running
01:00–03:00 queried with the window 02:00–04:00 returns that session even
though its start time 01:00 is strictly before the window (the cursor's
boundary-overlap step deliberately includes it). -/
theorem claim_C2_counterexample :
    sessOverlap ∈ getSessions (buildStore [sessOverlap]) qSince qUntil [] ∧
      instantSec sessOverlap.startTime < instantSec qSince := by
  decide

/-- C2 (amended): for putSession sequences with pairwise distinct
startTimes drawn from one zone offset at whole-second precision, and
same-offset query bounds, if no stored session straddles the lower bound
(every session starting strictly before `since` also ends by `since`),
then the unfiltered query returns exactly the sessions whose startTime
lies in the closed window, in chronological order. -/
theorem claim_C2_amended (l : List Session) (since untilT : Timestamp)
    (ω : Int)
    (hl : ∀ s ∈ l, Uniform ω s.startTime)
    (hsince : Uniform ω since) (huntil : Uniform ω untilT)
    (hdist : l.Pairwise fun a b => a.startTime ≠ b.startTime)
    (hnoov : ∀ s ∈ l, instantSec s.startTime < instantSec since →
      instantNs s.endTime ≤ instantNs since) :
    (∀ s, s ∈ getSessions (buildStore l) since untilT [] ↔
      s ∈ l ∧ instantSec since ≤ instantSec s.startTime ∧
        instantSec s.startTime ≤ instantSec untilT) ∧
    (getSessions (buildStore l) since untilT []).Pairwise
      (fun a b => instantSec a.startTime < instantSec b.startTime) := by
  have hkdist : l.Pairwise
      (fun a b : Session =>
        rfc3339Key a.startTime ≠ rfc3339Key b.startTime) :=
    List.Pairwise.imp_of_mem
      (fun {a} {b} ha hb hr =>
        key_ne_of_ne ω a.startTime b.startTime (hl a ha) (hl b hb) hr)
      hdist
  have hsort := buildStore_pairwise l
  have hmem := mem_buildStore l hkdist
  have hkeys : ∀ p ∈ buildStore l, p.1 = rfc3339Key p.2.startTime ∧
      Uniform ω p.2.startTime := by
    intro p hp
    obtain ⟨s, hs, rfl⟩ := (hmem p).mp hp
    exact ⟨rfl, hl s hs⟩
  have hnoovStore : ∀ p ∈ buildStore l,
      instantSec p.2.startTime < instantSec since →
      instantNs p.2.endTime ≤ instantNs since := by
    intro p hp
    obtain ⟨s, hs, rfl⟩ := (hmem p).mp hp
    exact hnoov s hs
  have hscan := scanRows_of_no_overlap ω (buildStore l) since untilT hsort
    hkeys hsince hnoovStore
  rw [getSessions_nil_tags, hscan]
  constructor
  · intro s
    constructor
    · intro hs
      obtain ⟨y, hy, rfl⟩ := List.mem_map.mp hs
      obtain ⟨hystore, hylow, hyhigh⟩ :=
        (mem_afterScan (buildStore l) _ _ hsort y).mp hy
      obtain ⟨s', hs', rfl⟩ := (hmem y).mp hystore
      have hlow : bytesLt (rfc3339Key s'.startTime)
          (rfc3339Key since) = false := hylow
      have hhigh : keyLe (rfc3339Key s'.startTime)
          (rfc3339Key untilT) = true := hyhigh
      show s' ∈ l ∧ instantSec since ≤ instantSec s'.startTime ∧
        instantSec s'.startTime ≤ instantSec untilT
      refine ⟨hs', ?_, ?_⟩
      · have hnotlt : ¬ instantSec s'.startTime < instantSec since := by
          intro hcon
          have hc := (key_lt_iff s'.startTime since (hl s' hs').1 hsince.1
            ((hl s' hs').2.1.trans hsince.2.1.symm)).mpr hcon
          rw [hc] at hlow
          exact Bool.noConfusion hlow
        omega
      · exact (keyLe_iff s'.startTime untilT (hl s' hs').1 huntil.1
          ((hl s' hs').2.1.trans huntil.2.1.symm)).mp hhigh
    · rintro ⟨hs, hlow, hhigh⟩
      refine List.mem_map.mpr ⟨(rfc3339Key s.startTime, s), ?_, rfl⟩
      refine (mem_afterScan (buildStore l) _ _ hsort _).mpr
        ⟨(hmem _).mpr ⟨s, hs, rfl⟩, ?_, ?_⟩
      · cases hb : bytesLt (rfc3339Key s.startTime) (rfc3339Key since) with
        | false => rfl
        | true =>
            have := (key_lt_iff s.startTime since (hl s hs).1 hsince.1
              ((hl s hs).2.1.trans hsince.2.1.symm)).mp hb
            omega
      · exact (keyLe_iff s.startTime untilT (hl s hs).1 huntil.1
          ((hl s hs).2.1.trans huntil.2.1.symm)).mpr hhigh
  · rw [List.pairwise_map]
    refine List.Pairwise.imp_of_mem ?_
      (afterScan_pairwise (buildStore l) _ _ hsort)
    intro a b ha hb hab
    obtain ⟨hastore, -, -⟩ := (mem_afterScan _ _ _ hsort a).mp ha
    obtain ⟨hbstore, -, -⟩ := (mem_afterScan _ _ _ hsort b).mp hb
    obtain ⟨hakey, hauni⟩ := hkeys a hastore
    obtain ⟨hbkey, hbuni⟩ := hkeys b hbstore
    refine instantSec_lt_of_key_lt a.2.startTime b.2.startTime hauni.1
      hbuni.1 (hauni.2.1.trans hbuni.2.1.symm) ?_
    rw [← hakey, ← hbkey]
    exact hab

/-- Witness for C2 (amended): one in-range session is returned by the
windowed query. -/
theorem claim_C2_amended_witness :
    sessInRange ∈ getSessions (buildStore [sessInRange]) qSince qUntil [] :=
  ((claim_C2_amended [sessInRange] qSince qUntil 0 (by decide) (by decide)
    (by decide) (by decide) (by decide)).1 sessInRange).mpr
    ⟨by decide, by decide, by decide⟩

/-- C1: on a sorted, correctly keyed store over a single zone offset, let
S be the session with the largest startTime strictly below `since`. The
unfiltered query with `until >= since` includes S exactly when S's endTime
is strictly after `since` (the cursor's Prev step), and excludes it when
its endTime is at or before `since`; results otherwise start at the first
key at or after the key of `since`. -/
theorem claim_C1 (store : List Row) (since untilT : Timestamp)
    (S : Session) (ω : Int)
    (hsort : store.Pairwise rowLt)
    (hkeys : ∀ p ∈ store, p.1 = rfc3339Key p.2.startTime ∧
      Uniform ω p.2.startTime)
    (hsince : Uniform ω since) (huntil : Uniform ω untilT)
    (hmem : (rfc3339Key S.startTime, S) ∈ store)
    (hbefore : instantSec S.startTime < instantSec since)
    (hmax : ∀ p ∈ store, instantSec p.2.startTime < instantSec since →
      instantSec p.2.startTime ≤ instantSec S.startTime)
    (hrange : instantSec since ≤ instantSec untilT) :
    S ∈ getSessions store since untilT [] ↔
      instantNs since < instantNs S.endTime := by
  have hSuni : Uniform ω S.startTime := (hkeys _ hmem).2
  have hkSlt : bytesLt (rfc3339Key S.startTime) (rfc3339Key since) = true :=
    key_lt_of_instantSec_lt _ _ hSuni.1 hsince.1
      (hSuni.2.1.trans hsince.2.1.symm) hbefore
  have hbeforec : ∀ a b : Row, rowLt a b →
      (fun p : Row => bytesLt p.1 (rfc3339Key since)) b = true →
      (fun p : Row => bytesLt p.1 (rfc3339Key since)) a = true :=
    fun a b hab hb => bytesLt_trans a.1 b.1 _ hab hb
  have htakebefore := takeWhile_eq_filter_of_sorted hbeforec store hsort
  have hSrow_before : (rfc3339Key S.startTime, S) ∈
      store.takeWhile fun p : Row => bytesLt p.1 (rfc3339Key since) := by
    rw [htakebefore]
    exact List.mem_filter.mpr ⟨hmem, hkSlt⟩
  have hmaxrow : ∀ y ∈ store.takeWhile
      (fun p : Row => bytesLt p.1 (rfc3339Key since)),
      ¬ rowLt (rfc3339Key S.startTime, S) y := by
    intro y hy hlt
    rw [htakebefore] at hy
    obtain ⟨hystore, hylt⟩ := List.mem_filter.mp hy
    obtain ⟨hykey, hyuni⟩ := hkeys y hystore
    have hlt' : bytesLt (rfc3339Key S.startTime)
        (rfc3339Key y.2.startTime) = true := by
      rw [← hykey]
      exact hlt
    have hylt' : bytesLt (rfc3339Key y.2.startTime)
        (rfc3339Key since) = true := by
      rw [← hykey]
      exact hylt
    have h1 : instantSec S.startTime < instantSec y.2.startTime :=
      instantSec_lt_of_key_lt _ _ hSuni.1 hyuni.1
        (hSuni.2.1.trans hyuni.2.1.symm) hlt'
    have h2 : instantSec y.2.startTime < instantSec since :=
      instantSec_lt_of_key_lt _ _ hyuni.1 hsince.1
        (hyuni.2.1.trans hsince.2.1.symm) hylt'
    have h3 := hmax y hystore h2
    omega
  have hlast := getLast?_eq_of_max
    (store.takeWhile fun p : Row => bytesLt p.1 (rfc3339Key since))
    (hsort.sublist (List.takeWhile_sublist _)) _ hSrow_before hmaxrow
  rw [getSessions_nil_tags]
  unfold scanRows
  split
  · rename_i hnone
    exact absurd (hlast.symm.trans hnone) (by simp)
  · rename_i p hp_eq
    have hpS : p = (rfc3339Key S.startTime, S) :=
      (Option.some_inj.mp (hlast.symm.trans hp_eq)).symm
    subst hpS
    by_cases hcond : instantNs since < instantNs S.endTime
    · rw [if_pos hcond]
      have hRowLe : keyLe (rfc3339Key S.startTime)
          (rfc3339Key untilT) = true :=
        keyLe_trans_lt _ _ _ hkSlt
          ((keyLe_iff since untilT hsince.1 huntil.1
            (hsince.2.1.trans huntil.2.1.symm)).mpr hrange)
      have hRowLe' : (fun p : Row => keyLe p.1 (rfc3339Key untilT))
          (rfc3339Key S.startTime, S) = true := hRowLe
      rw [@List.takeWhile_cons_of_pos Row
        (fun p : Row => keyLe p.1 (rfc3339Key untilT))
        (rfc3339Key S.startTime, S)
        (store.dropWhile fun q : Row => bytesLt q.1 (rfc3339Key since))
        hRowLe']
      exact iff_of_true (List.mem_cons_self _ _) hcond
    · rw [if_neg hcond]
      constructor
      · intro hs
        exfalso
        obtain ⟨y, hy, hy2⟩ := List.mem_map.mp hs
        obtain ⟨hystore, hylow, -⟩ := (mem_afterScan store _ _ hsort y).mp hy
        obtain ⟨hykey, -⟩ := hkeys y hystore
        have hylow' : bytesLt (rfc3339Key S.startTime)
            (rfc3339Key since) = false := by
          rw [← hy2, ← hykey]
          exact hylow
        exact Bool.noConfusion (hkSlt.symm.trans hylow')
      · intro hcon
        exact absurd hcon hcond

/-- Witness for C1: the boundary session 01:00–03:00 is returned for the
window 02:00–04:00 because its endTime 03:00 is after 02:00. -/
theorem claim_C1_witness :
    sessOverlap ∈ getSessions
      [(rfc3339Key sessOverlap.startTime, sessOverlap)] qSince qUntil [] :=
  (claim_C1 [(rfc3339Key sessOverlap.startTime, sessOverlap)] qSince qUntil
    sessOverlap 0 (List.pairwise_singleton _ _) (by decide) (by decide)
    (by decide) (by decide) (by decide) (by decide) (by decide)).mpr
    (by decide)

/-- C3 (counterexample): the claim that a non-empty tag filter returns
each in-range session at most once is false: the Go loop appends the
session once per matching tag, so the session tagged `work` and `deep`
queried with the filter `[work, deep]` appears twice even though it is in
range. -/
theorem claim_C3_counterexample :
    (getSessions (buildStore [sessTagged]) c3Since c3Until
      ["work", "deep"]).count sessTagged = 2 ∧
    instantSec c3Since ≤ instantSec sessTagged.startTime ∧
    instantSec sessTagged.startTime ≤ instantSec c3Until := by
  decide

/-- C3 (amended): with a non-empty tag filter, the query emits each
scanned session once per element of the session's tag list that occurs in
the filter — hence a session is returned (at least once) exactly when its
tag set intersects the filter — and an empty filter returns exactly the
unfiltered result. -/
theorem claim_C3_amended (bucket : List Row) (since untilT : Timestamp)
    (tags : List String) :
    (getSessions bucket since untilT tags =
      (getSessions bucket since untilT []).flatMap fun s =>
        if tags.isEmpty then [s]
        else (s.tags.filter fun t => tags.contains t).map fun _ => s) ∧
    ∀ s, s ∈ getSessions bucket since untilT tags ↔
      s ∈ getSessions bucket since untilT [] ∧
        (tags = [] ∨ ∃ t ∈ s.tags, t ∈ tags) := by
  have hmap := getSessions_nil_tags bucket since untilT
  constructor
  · rw [hmap]
    unfold getSessions
    generalize scanRows bucket since untilT = rows
    induction rows with
    | nil => rfl
    | cons p ps ih => simp_all
  · intro s
    rw [hmap]
    unfold getSessions
    generalize scanRows bucket since untilT = rows
    by_cases htag : tags = []
    · subst htag
      simp
    · have hne : tags.isEmpty = false := by
        cases tags with
        | nil => exact absurd rfl htag
        | cons a t => rfl
      simp only [hne, Bool.false_eq_true, if_false, List.mem_flatMap,
        List.mem_map, List.mem_filter]
      constructor
      · rintro ⟨p, hp, hsp⟩
        obtain ⟨t, ⟨htmem, htcont⟩, rfl⟩ := hsp
        exact ⟨⟨p, hp, rfl⟩, Or.inr ⟨t, htmem, by simpa using htcont⟩⟩
      · rintro ⟨⟨p, hp, rfl⟩, htags⟩
        rcases htags with h0 | ⟨t, htmem, htin⟩
        · exact absurd h0 htag
        · exact ⟨p, hp, ⟨t, ⟨htmem, by simpa using htin⟩, rfl⟩⟩

/-- Session kinds of the legacy timer (`sessionType` in src/app.go). -/
inductive SessionType
  | pomodoro
  | shortBreak
  | longBreak
deriving DecidableEq

/-- The scheduling fields of the legacy `timer` struct: long-break
interval and `maxPomodoros` (0 = unlimited). -/
structure TimerCfg where
  longBreakInterval : Nat
  maxPomodoros : Nat
deriving DecidableEq

/-- The mutable scheduling state of the legacy `timer` struct. -/
structure TimerMachine where
  currentSession : SessionType
  counter : Nat
  iteration : Nat
deriving DecidableEq

/-- `timer.nextSession`: after a pomodoro, a long break when the iteration
has reached the interval and a short break otherwise; after any break, a
pomodoro. -/
def nextSession (cfg : TimerCfg) (t : TimerMachine) : SessionType :=
  match t.currentSession with
  | .pomodoro =>
      if t.iteration = cfg.longBreakInterval then .longBreak
      else .shortBreak
  | .shortBreak => .pomodoro
  | .longBreak => .pomodoro

/-- The state mutation at the top of `timer.start`: record the session
kind, increment the session counter (for EVERY kind of session), and on a
pomodoro advance the iteration, wrapping to 1 when it had reached the
interval. -/
def startSession (cfg : TimerCfg) (t : TimerMachine)
    (session : SessionType) : TimerMachine :=
  { currentSession := session,
    counter := t.counter + 1,
    iteration :=
      if session = .pomodoro then
        if t.iteration = cfg.longBreakInterval then 1 else t.iteration + 1
      else t.iteration }

/-- The tail recursion of `timer.start`: run the session's countdown to
completion, then stop when `t.counter == t.maxPomodoros`, otherwise start
`t.nextSession()`. Returns the machine state after each session start, in
order; `fuel` bounds the unrolling of the otherwise endless loop. -/
def runStates (cfg : TimerCfg) : Nat → TimerMachine → SessionType →
    List TimerMachine
  | 0, _, _ => []
  | fuel + 1, t, session =>
      if (startSession cfg t session).counter = cfg.maxPomodoros then
        [startSession cfg t session]
      else
        startSession cfg t session ::
          runStates cfg fuel (startSession cfg t session)
            (nextSession cfg (startSession cfg t session))

/-- The machine at process start: Go zero values for counter and
iteration; the first session started is a pomodoro. -/
def initialMachine : TimerMachine :=
  { currentSession := .pomodoro, counter := 0, iteration := 0 }

/-- C4 (code bug): with `maxPomodoros = 2` and `longBreakInterval = 4`
the run starts a pomodoro, then a short break, and stops right after that
break: `counter` is incremented for break sessions too and the
`counter == maxPomodoros` check runs after every session, so only ONE
work session is ever started — the machine never reaches "second Work
session completes" at all, contradicting the claim (and the flag's own
documentation, "the maximum number of work sessions"). -/
theorem claim_C4_code_divergence :
    (runStates ⟨4, 2⟩ 10 initialMachine .pomodoro).map
        (fun t => t.currentSession) =
      [.pomodoro, .shortBreak] ∧
    ((runStates ⟨4, 2⟩ 10 initialMachine .pomodoro).map
        (fun t => t.currentSession)).count .pomodoro = 1 := by
  decide

/-- C5: with `longBreakInterval = 4` (and no session cap) four Work
completions carry the iteration through 1, 2, 3, 4; the session after a
Work with iteration equal to the interval is the long break (otherwise the
short break); and the first Work after the long break starts a new cycle
at iteration 1. -/
theorem claim_C5 :
    (∀ li mp ctr it : Nat,
      nextSession ⟨li, mp⟩ ⟨.pomodoro, ctr, it⟩ =
        if it = li then .longBreak else .shortBreak) ∧
    (runStates ⟨4, 0⟩ 9 initialMachine .pomodoro).map
        (fun t => (t.currentSession, t.iteration)) =
      [(.pomodoro, 1), (.shortBreak, 1), (.pomodoro, 2), (.shortBreak, 2),
       (.pomodoro, 3), (.shortBreak, 3), (.pomodoro, 4), (.longBreak, 4),
       (.pomodoro, 1)] := by
  exact ⟨fun li mp ctr it => rfl, by decide⟩

/-- The serializable fields of `config.TimerConfig` persisted by
`SaveTimer` (stream handles carry no data and are not serialized). -/
structure TimerConfig where
  workMinutes : Nat
  shortBreakMinutes : Nat
  longBreakMinutes : Nat
  longBreakInterval : Nat
  maxSessions : Nat
  autoStartBreak : Bool
  autoStartWork : Bool
  notify : Bool
deriving DecidableEq

/-- The `timerState` record marshalled under the `timer` key. -/
structure TimerStateRec where
  opts : TimerConfig
  workCycle : Nat
deriving DecidableEq

/-- Errors surfaced by the store client: `errFocusRunning`,
`errNoPausedSession`, and pass-through I/O failures. -/
inductive StoreErr
  | focusRunning
  | noPausedSession
  | ioFailure (code : Nat)
deriving DecidableEq

/-- The BoltDB store contents: the sorted `sessions` bucket plus the two
keys of the `timer` bucket (`timer` and `interrrupted_session_key`). -/
structure StoreState where
  sessionsBucket : List Row
  timerKey : Option TimerStateRec
  interruptedSessionKey : Option (List Nat)
deriving DecidableEq

/-- `Client.SaveTimer`: marshals `timerState{opts, workCycle}` under the
`timer` key and writes the paused session's key next to it, in one
transaction. -/
def saveTimer (st : StoreState) (sessionKey : List Nat)
    (opts : TimerConfig) (workCycle : Nat) : StoreState :=
  { st with
      timerKey := some ⟨opts, workCycle⟩,
      interruptedSessionKey := some sessionKey }

/-- `Client.DeleteTimer`: deletes both keys of the `timer` bucket. -/
def deleteTimer (st : StoreState) : StoreState :=
  { st with timerKey := none, interruptedSessionKey := none }

/-- Bucket `Get` on the sessions bucket: the stored record, absent when
the key is missing (BoltDB returns nil and the Go code checks
`len(sessBytes) == 0`). -/
def lookupSession (bucket : List Row) (k : List Nat) : Option Session :=
  (bucket.find? fun p => p.1 == k).map fun p => p.2

/-- `Client.GetInterrupted`: `errNoPausedSession` when the `timer` key is
empty; otherwise the stored config and work cycle together with the
session stored under the saved key (absent when that record is gone),
after which the timer state is deleted. -/
def getInterrupted (st : StoreState) :
    Except StoreErr (TimerConfig × Nat × Option Session) × StoreState :=
  match st.timerKey with
  | none => (.error .noPausedSession, st)
  | some t =>
      (.ok (t.opts, t.workCycle,
        lookupSession st.sessionsBucket
          (st.interruptedSessionKey.getD [])), deleteTimer st)

/-- C7: the resume round-trip. `SaveTimer` followed by `GetInterrupted`
returns exactly the saved config and work cycle together with the session
stored under the saved key; and after `DeleteTimer`, `GetInterrupted`
fails with `errNoPausedSession`. -/
theorem claim_C7 (st : StoreState) (sessionKey : List Nat)
    (opts : TimerConfig) (workCycle : Nat) :
    (getInterrupted (saveTimer st sessionKey opts workCycle)).1 =
      .ok (opts, workCycle,
        lookupSession st.sessionsBucket sessionKey) ∧
    ∀ st' : StoreState,
      (getInterrupted (deleteTimer st')).1 = .error .noPausedSession := by
  exact ⟨rfl, fun st' => rfl⟩

/-- Outcome of `bolt.Open`, abstracted over the backing file state. -/
inductive BoltOpenResult
  | opened
  | errTimeout
  | errOther (code : Nat)
deriving DecidableEq

/-- The lock timeout `openDB` passes to BoltDB:
`&bolt.Options{Timeout: 1 * time.Second}`. -/
def openDBTimeoutSeconds : Nat := 1

/-- Modelled from the library contract of `bolt.Open`: with a positive
`Timeout`, when another handle holds the file lock for the whole wait the
call gives up after the timeout with `ErrTimeout` instead of blocking
forever; without contention it surfaces the underlying I/O fault, if any,
and otherwise opens. The second component is the seconds waited. -/
def boltOpen (lockHeld : Bool) (fault : Option Nat)
    (timeoutSeconds : Nat) : BoltOpenResult × Nat :=
  if lockHeld then (.errTimeout, timeoutSeconds)
  else
    match fault with
    | some c => (.errOther c, 0)
    | none => (.opened, 0)

/-- `openDB` (store/store.go, current store version): open with the
1-second lock timeout; ONLY `ErrTimeout` is checked and remapped to
`errFocusRunning` — every other outcome falls through to `return db, nil`,
so a failed open hands the caller the nil handle (`none`) together with a
nil error: the open error is dropped. (`bolt.Open` returns a nil `*DB`
alongside a non-nil error.) The second component is the seconds waited. -/
def openDB (lockHeld : Bool) (fault : Option Nat) :
    Except StoreErr (Option Unit) × Nat :=
  match boltOpen lockHeld fault openDBTimeoutSeconds with
  | (.errTimeout, w) => (.error .focusRunning, w)
  | (.errOther _, w) => (.ok none, w)
  | (.opened, w) => (.ok (some ()), w)

/-- Observable outcome of `NewClient`: an error return, a client built on
an open handle, or the runtime panic of using a nil handle. -/
inductive NewClientOutcome
  | ok
  | err (e : StoreErr)
  | nilPanic
deriving DecidableEq

/-- `NewClient` (current store version): returns the open error when
`openDB` reports one; otherwise it immediately runs the bucket-creation
transaction `db.Update(...)` on the returned handle — on the
swallowed-error path of `openDB` that handle is nil and the method call
dereferences a nil pointer, a runtime panic (Go nil-receiver semantics),
modelled as a distinct outcome rather than an error value. -/
def newClient (lockHeld : Bool) (fault : Option Nat) : NewClientOutcome :=
  match (openDB lockHeld fault).1 with
  | .error e => .err e
  | .ok none => .nilPanic
  | .ok (some _) => .ok

/-- C6: opening the store while another handle holds the file lock fails
with `errFocusRunning` after the bounded wait of exactly the configured
1 second, never blocking indefinitely, whatever else is wrong with the
file. -/
theorem claim_C6 (fault : Option Nat) :
    openDB true fault = (.error .focusRunning, openDBTimeoutSeconds) ∧
    openDBTimeoutSeconds = 1 ∧
    newClient true fault = .err .focusRunning := by
  exact ⟨rfl, rfl, rfl⟩

/-- C9 (code bug): an open that fails for a reason other than lock
contention is silently swallowed by the current store version: `openDB`
checks only `ErrTimeout` and then executes `return db, nil`, so the
caller receives a nil error together with the nil handle instead of the
I/O error, and `NewClient` proceeds to invoke `db.Update` on that nil
handle — a nil-pointer panic, not an error return. (The legacy `openDB`
propagated such errors with `return nil, err`.) -/
theorem claim_C9_code_divergence (c : Nat) :
    openDB false (some c) = (.ok none, 0) ∧
    newClient false (some c) = NewClientOutcome.nilPanic := by
  exact ⟨rfl, rfl⟩

/-- `timeutil.ToKey` — Modelled from the spec: the `timeutil` package is
not under src; the spec fixes session keys to a rendering of the start
time whose byte order matches the RFC3339 keys used on the query side. -/
def toKey (t : Timestamp) : List Nat := rfc3339Key t

/-- `Client.UpdateSessions` (second store version): ranges over the
sessions map but RETURNS inside the first loop iteration, so exactly one
entry — the first in Go's unspecified map iteration order, here the head
of the enumeration — is marshalled and `Put`; the remaining entries are
never written. -/
def updateSessions (bucket : List Row)
    (entries : List (Timestamp × Session)) : List Row :=
  match entries with
  | [] => bucket
  | e :: _ => insertRow bucket (toKey e.1) e.2

/-- C10: on a non-empty map, `UpdateSessions` performs exactly the write
of its first enumerated entry: the result equals a single `Put` of that
entry, does not depend on the remaining entries, and every other key of
the bucket is untouched. -/
theorem claim_C10 (bucket : List Row) (e : Timestamp × Session)
    (rest : List (Timestamp × Session))
    (hsort : bucket.Pairwise rowLt) :
    updateSessions bucket (e :: rest) =
      insertRow bucket (toKey e.1) e.2 ∧
    updateSessions bucket (e :: rest) = updateSessions bucket [e] ∧
    ∀ y : Row, y ∈ updateSessions bucket (e :: rest) ↔
      y = (toKey e.1, e.2) ∨ (y ∈ bucket ∧ y.1 ≠ toKey e.1) := by
  exact ⟨rfl, rfl, mem_insertRow_iff bucket (toKey e.1) e.2 hsort⟩

/-- Witness for C10: with two map entries, only the first is written. -/
theorem claim_C10_witness :
    updateSessions [] [(sessTagged.startTime, sessTagged),
      (sessInRange.startTime, sessInRange)] =
      insertRow [] (toKey sessTagged.startTime) sessTagged :=
  (claim_C10 [] (sessTagged.startTime, sessTagged)
    [(sessInRange.startTime, sessInRange)] List.Pairwise.nil).1

end Focus
